import Mathlib

/-!
Shallow embedding of the `maehem` component base class (src/index.js, with
src/comp.js noted where it differs) and proofs about its field lifecycle,
view caching and event-wiring conventions.
-/

namespace Maehem

/--
JavaScript values, restricted to the shapes that flow through the component
field machinery: `undefined`, `null`, strings, HTML elements and functions.
Elements and functions are identified by a numeric reference id; `===` on
them is reference equality, which structural equality on the id models.
-/
inductive JSValue where
  | undef : JSValue
  | null : JSValue
  | str (s : String) : JSValue
  | elem (ref : Nat) : JSValue
  | func (ref : Nat) : JSValue
deriving DecidableEq, Repr

/--
JavaScript loose equality `==` on the modelled value shapes:
`null == undefined` holds, same-shape values compare componentwise, and
object/function comparisons are reference comparisons.  Mixed
primitive/object cases are `false` for these shapes.
-/
def looseEq : JSValue → JSValue → Bool
  | .undef, .undef => true
  | .undef, .null => true
  | .null, .undef => true
  | .null, .null => true
  | .str a, .str b => a == b
  | .elem a, .elem b => a == b
  | .func a, .func b => a == b
  | _, _ => false

/--
A declared field of a component (src/index.js `Field` typedef):
a name, an optional kind (`'attr'` or `'state'`), a default value and a
required flag.
-/
structure Field where
  name : String
  kind : Option String
  default : JSValue
  required : Bool
deriving DecidableEq, Repr

/--
`field.kind && field.kind === fieldKind.attr` (src/index.js:253) —
an absent kind is falsy, so a field is attr-kind exactly when its kind is
the string `'attr'`.
-/
def isAttrKind (f : Field) : Bool :=
  match f.kind with
  | some k => k == "attr"
  | none => false

/--
`Component._getDefault` (src/index.js:240-245): a function default is
invoked (awaited) with the component; anything else is returned as is.
`env` maps a function reference to the awaited result of invoking it.
-/
def getDefault (env : Nat → JSValue) : JSValue → JSValue
  | .func ref => env ref
  | v => v

/--
Value resolution inside `Component._initField` (src/index.js:256-262):
a constructor-supplied default that is not `undefined` wins; otherwise an
attr-kind field reads its DOM attribute (`getAttribute` returns `null` or
a string; `||` makes `null` and `""` fall through to the declared
default); a state-kind field uses the declared default directly.
-/
def initFieldValue (env : Nat → JSValue) (ctorDefault : JSValue)
    (attrVal : Option String) (f : Field) : JSValue :=
  if ctorDefault ≠ JSValue.undef then
    getDefault env ctorDefault
  else if isAttrKind f then
    match attrVal with
    | some s => if s ≠ "" then JSValue.str s else getDefault env f.default
    | none => getDefault env f.default
  else
    getDefault env f.default

/--
`Component._initField` (src/index.js:251-266), up to the required check:
resolves the field value, stores it (the stored value is the `.ok`
payload) and throws `` `${field.name} is required for component
${this.nodeName}` `` when a required field resolved to `undefined`.
`defaults` is the constructor-supplied defaults record (absent entries are
`undefined`), `getAttr` is `this.getAttribute`, `nodeName` is
`this.nodeName`.
-/
def initField (env : Nat → JSValue) (defaults : String → JSValue)
    (getAttr : String → Option String) (nodeName : String) (f : Field) :
    Except String JSValue :=
  let v := initFieldValue env (defaults f.name) (getAttr f.name) f
  if f.required && (v == JSValue.undef) then
    Except.error (f.name ++ " is required for component " ++ nodeName)
  else
    Except.ok v

/--
C1: `_initField` throws exactly when a required field's resolved value is
`undefined`, and the thrown message names the field and the component;
for a required field whose resolved value is defined it does not throw.
-/
theorem initField_required_error (env : Nat → JSValue)
    (defaults : String → JSValue) (getAttr : String → Option String)
    (nodeName : String) (f : Field) :
    (∀ e, initField env defaults getAttr nodeName f = Except.error e ↔
      (f.required = true ∧
        initFieldValue env (defaults f.name) (getAttr f.name) f = JSValue.undef ∧
        e = f.name ++ " is required for component " ++ nodeName)) ∧
    (initFieldValue env (defaults f.name) (getAttr f.name) f ≠ JSValue.undef →
      initField env defaults getAttr nodeName f =
        Except.ok (initFieldValue env (defaults f.name) (getAttr f.name) f)) := by
  constructor
  · intro e
    unfold initField
    by_cases hr : f.required = true
    · by_cases hv : initFieldValue env (defaults f.name) (getAttr f.name) f = JSValue.undef
      · simp [hr, hv]
        exact eq_comm
      · simp [hr, hv]
    · simp at hr
      simp [hr]
  · intro hv
    unfold initField
    simp [hv]

/--
Witness for C1: a required state field with no default throws the message
naming the field and component, and a required field with a string default
resolves without throwing.
-/
theorem initField_required_error_witness :
    (initField (fun _ => JSValue.undef) (fun _ => JSValue.undef) (fun _ => none)
      "MY-COMP" ⟨"title", none, JSValue.undef, true⟩ =
      Except.error "title is required for component MY-COMP") ∧
    (initField (fun _ => JSValue.undef) (fun _ => JSValue.undef) (fun _ => none)
      "MY-COMP" ⟨"title", none, JSValue.str "hi", true⟩ =
      Except.ok (JSValue.str "hi")) := by
  constructor
  · exact ((initField_required_error (fun _ => JSValue.undef) (fun _ => JSValue.undef)
      (fun _ => none) "MY-COMP" ⟨"title", none, JSValue.undef, true⟩).1 _).mpr
      (by refine ⟨rfl, by decide, rfl⟩)
  · exact (initField_required_error (fun _ => JSValue.undef) (fun _ => JSValue.undef)
      (fun _ => none) "MY-COMP" ⟨"title", none, JSValue.str "hi", true⟩).2 (by decide)

/--
C8: the fixed precedence of field value resolution — a constructor default
that is not `undefined` always wins (the attribute and declared default are
ignored); otherwise an attr-kind field uses its DOM attribute unless the
attribute is absent or the empty string, in which case the declared default
is used; a state-kind field uses the declared default directly; and a
function default is invoked, its awaited result becoming the value.
-/
theorem initFieldValue_precedence (env : Nat → JSValue) (ctorDefault : JSValue)
    (attrVal : Option String) (f : Field) :
    (ctorDefault ≠ JSValue.undef →
      initFieldValue env ctorDefault attrVal f = getDefault env ctorDefault) ∧
    (ctorDefault = JSValue.undef → isAttrKind f = true → ∀ s, attrVal = some s → s ≠ "" →
      initFieldValue env ctorDefault attrVal f = JSValue.str s) ∧
    (ctorDefault = JSValue.undef → isAttrKind f = true →
      (attrVal = none ∨ attrVal = some "") →
      initFieldValue env ctorDefault attrVal f = getDefault env f.default) ∧
    (ctorDefault = JSValue.undef → isAttrKind f = false →
      initFieldValue env ctorDefault attrVal f = getDefault env f.default) ∧
    (∀ ref, getDefault env (JSValue.func ref) = env ref) ∧
    (∀ v, (∀ ref, v ≠ JSValue.func ref) → getDefault env v = v) := by
  refine ⟨?_, ?_, ?_, ?_, ?_, ?_⟩
  · intro h
    simp [initFieldValue, h]
  · intro h hk s hs hne
    simp [initFieldValue, h, hk, hs, hne]
  · intro h hk hcase
    rcases hcase with hnone | hempty
    · simp [initFieldValue, h, hk, hnone]
    · simp [initFieldValue, h, hk, hempty]
  · intro h hk
    simp [initFieldValue, h, hk]
  · intro ref
    rfl
  · intro v hv
    cases v with
    | func ref => exact absurd rfl (hv ref)
    | undef => rfl
    | null => rfl
    | str s => rfl
    | elem r => rfl

/--
Witness for C8: with no constructor default, an attr field with attribute
`"5"` takes the attribute; with attribute absent it invokes a function
default whose result is `null`.
-/
theorem initFieldValue_precedence_witness :
    (initFieldValue (fun _ => JSValue.null) JSValue.undef (some "5")
      ⟨"count", some "attr", JSValue.func 0, false⟩ = JSValue.str "5") ∧
    (initFieldValue (fun _ => JSValue.null) JSValue.undef none
      ⟨"count", some "attr", JSValue.func 0, false⟩ = JSValue.null) := by
  constructor
  · exact (initFieldValue_precedence (fun _ => JSValue.null) JSValue.undef (some "5")
      ⟨"count", some "attr", JSValue.func 0, false⟩).2.1 rfl (by decide) "5" rfl (by decide)
  · exact (initFieldValue_precedence (fun _ => JSValue.null) JSValue.undef none
      ⟨"count", some "attr", JSValue.func 0, false⟩).2.2.1 rfl (by decide) (Or.inl rfl)

/--
`static get observedAttributes` (src/index.js:146-151): the declared
fields filtered to `v.kind && v.kind === fieldKind.attr`, mapped to their
names.
-/
def observedAttributes (fields : List Field) : List String :=
  (fields.filter isAttrKind).map (fun f => f.name)

/--
The spec-side reading of C9: the names of exactly the attr-kind fields,
produced in field-declaration order.
-/
def specObservedAttrs : List Field → List String
  | [] => []
  | f :: fs =>
    if f.kind = some "attr" then f.name :: specObservedAttrs fs
    else specObservedAttrs fs

/--
C9: `observedAttributes` returns exactly the names of the declared fields
whose kind equals `'attr'`, in field-declaration order; state-kind fields
and fields with no kind never appear.
-/
theorem observedAttributes_spec (fields : List Field) :
    observedAttributes fields = specObservedAttrs fields ∧
    (∀ n, n ∈ observedAttributes fields ↔
      ∃ f ∈ fields, f.name = n ∧ f.kind = some "attr") := by
  constructor
  · induction fields with
    | nil => rfl
    | cons f fs ih =>
      by_cases hk : f.kind = some "attr"
      · have hattr : isAttrKind f = true := by
          simp [isAttrKind, hk]
        simp [observedAttributes, specObservedAttrs, hk, hattr] at ih ⊢
        exact ih
      · have hattr : isAttrKind f = false := by
          unfold isAttrKind
          cases hkk : f.kind with
          | none => rfl
          | some k =>
            rw [hkk] at hk
            simp only [beq_eq_false_iff_ne, ne_eq]
            intro hke
            exact hk (by rw [hke])
        simp [observedAttributes, specObservedAttrs, hk, hattr] at ih ⊢
        exact ih
  · intro n
    constructor
    · intro hn
      simp only [observedAttributes, List.mem_map, List.mem_filter] at hn
      obtain ⟨f, ⟨hf, hfa⟩, hname⟩ := hn
      refine ⟨f, hf, hname, ?_⟩
      unfold isAttrKind at hfa
      cases hkk : f.kind with
      | none => rw [hkk] at hfa; exact absurd hfa (by decide)
      | some k =>
        rw [hkk] at hfa
        simp only [beq_iff_eq] at hfa
        rw [hfa]
    · intro ⟨f, hf, hname, hk⟩
      simp only [observedAttributes, List.mem_map, List.mem_filter]
      exact ⟨f, ⟨hf, by simp [isAttrKind, hk]⟩, hname⟩

/--
`Component.attributeChangedCallback` (src/index.js:178-183) together with
`_setField` (src/index.js:431-433).  `attrs` is the `this._attrs` record,
`hasSetter name` is the truthiness of `this['set_' + name]`, and
`runSetter` is the (arbitrary, possibly throwing) generated setter whose
outcome lives in an abstract effect type `σ`; `noEffect` denotes the
outcome in which nothing was stored, rendered or dispatched.  JS `!=` is
the negation of `==`.
-/
def attributeChangedCallback {σ : Type} (attrs : String → JSValue)
    (hasSetter : String → Bool) (runSetter : String → JSValue → Except String σ)
    (noEffect : σ) (name : String) (oldValue newValue : JSValue) :
    Except String σ :=
  if looseEq oldValue newValue then Except.ok noEffect
  else if !(looseEq (attrs name) newValue) then
    (if hasSetter name then runSetter name newValue else Except.ok noEffect)
  else Except.ok noEffect

/--
C10: in each guard case — old and new values loosely equal, or the stored
attribute record already loosely equal to the new value, or no generated
setter present yet — `attributeChangedCallback` returns without throwing
and without any effect (nothing stored, no render, no event dispatched).
-/
theorem attributeChangedCallback_guards {σ : Type} (attrs : String → JSValue)
    (hasSetter : String → Bool) (runSetter : String → JSValue → Except String σ)
    (noEffect : σ) (name : String) (oldValue newValue : JSValue)
    (h : looseEq oldValue newValue = true ∨
      looseEq (attrs name) newValue = true ∨ hasSetter name = false) :
    attributeChangedCallback attrs hasSetter runSetter noEffect
      name oldValue newValue = Except.ok noEffect := by
  unfold attributeChangedCallback
  rcases h with h1 | h2 | h3
  · simp [h1]
  · simp [h2]
  · by_cases h1 : looseEq oldValue newValue
    · simp [h1]
    · simp [h1, h3]

/--
Witness for C10: a component whose setter would throw is untouched when the
old and new attribute values coincide, and likewise when the setter does
not exist yet.
-/
theorem attributeChangedCallback_guards_witness :
    attributeChangedCallback (fun _ => JSValue.undef) (fun _ => true)
      (fun _ _ => Except.error "boom") (0 : Nat) "title"
      (JSValue.str "a") (JSValue.str "a") = Except.ok 0 ∧
    attributeChangedCallback (fun _ => JSValue.undef) (fun _ => false)
      (fun _ _ => Except.error "boom") (0 : Nat) "title"
      JSValue.null (JSValue.str "b") = Except.ok 0 := by
  constructor
  · exact attributeChangedCallback_guards (fun _ => JSValue.undef) (fun _ => true)
      (fun _ _ => Except.error "boom") (0 : Nat) "title" (JSValue.str "a") (JSValue.str "a")
      (Or.inl (by decide))
  · exact attributeChangedCallback_guards (fun _ => JSValue.undef) (fun _ => false)
      (fun _ _ => Except.error "boom") (0 : Nat) "title" JSValue.null (JSValue.str "b")
      (Or.inr (Or.inr rfl))

/--
Observable effects of the generated setter `set_<name>`: DOM attribute
writes, field re-renders, event re-wiring, the `<name>_updated` hook and
`CustomEvent` dispatches, in the order the setter performs them.
-/
inductive FxEv where
  | setAttr (name : String) (value : JSValue)
  | render (name : String)
  | wire
  | updatedHook (name : String)
  | dispatch (event : String)
deriving DecidableEq, Repr

/--
The two storage cells a field name can address in the `objs` record of
src/index.js: `_initField` writes `objs['_' + name]` (`prefixedSlot`)
while the generated setter reads its old value from `objs[name]`
(`plainSlot`), which nothing ever writes.
-/
structure FieldSlots where
  prefixedSlot : JSValue
  plainSlot : JSValue
deriving DecidableEq, Repr

/--
The generated setter of src/index.js:270-286: `oldValue` is read from
`objs[name]` (the plain slot), the guard returns when
`newValue === oldValue`, and otherwise the value is stored in
`objs['_' + name]`, the attribute is mirrored for attr-kind fields, the
field is re-rendered, events are re-wired, the `<name>_updated` hook runs
and `<name>_change` plus `change` are dispatched.
-/
def setFieldIndexJs (name : String) (isAttr hasUpdatedHook : Bool)
    (slots : FieldSlots) (newValue : JSValue) : FieldSlots × List FxEv :=
  let oldValue := slots.plainSlot
  if newValue == oldValue then (slots, [])
  else
    ({ slots with prefixedSlot := newValue },
      (if isAttr then [FxEv.setAttr name newValue] else []) ++
        [FxEv.render name, FxEv.wire] ++
        (if hasUpdatedHook then [FxEv.updatedHook name] else []) ++
        [FxEv.dispatch (name ++ "_change"), FxEv.dispatch "change"])

/--
The generated setter of src/comp.js:79-91, which keeps a single storage
cell `objs[name]` for both the read of `oldValue` and the store, and
dispatches `<name>change` instead of `<name>_change`.
-/
def setFieldCompJs (name : String) (isAttr hasUpdatedHook : Bool)
    (stored : JSValue) (newValue : JSValue) : JSValue × List FxEv :=
  if newValue == stored then (stored, [])
  else
    (newValue,
      (if isAttr then [FxEv.setAttr name newValue] else []) ++
        [FxEv.render name, FxEv.wire] ++
        (if hasUpdatedHook then [FxEv.updatedHook name] else []) ++
        [FxEv.dispatch (name ++ "change"), FxEv.dispatch "change"])

/--
The `objs` record right after `_initField` stored resolved value `v` in
src/index.js: only `objs['_' + name]` was written; `objs[name]` holds
`undefined` because `this._attrs` and `this._state` start out as `{}`.
-/
def initFieldSlots (v : JSValue) : FieldSlots :=
  { prefixedSlot := v, plainSlot := JSValue.undef }

/--
In src/comp.js the setter guard works as C2 states: setting the stored
value again is a no-op.
-/
theorem setFieldCompJs_same_value_noop (name : String) (isAttr hasUpdatedHook : Bool)
    (stored : JSValue) :
    setFieldCompJs name isAttr hasUpdatedHook stored stored = (stored, []) := by
  simp [setFieldCompJs]

/--
C2 fails on src/index.js: a state field `x` initialized to `"a"` stores
`"a"` in `objs['_x']`, yet `set_x("a")` is not a no-op — the guard
compares against the never-written `objs[name]` slot, so the setter
re-renders, re-wires and dispatches `x_change` and `change` (with
`oldValue` `undefined`); only `set_x(undefined)` would hit the guard.
-/
theorem setFieldIndexJs_same_value_not_noop :
    (initField (fun _ => JSValue.undef) (fun _ => JSValue.undef) (fun _ => none)
      "X-COMP" ⟨"x", none, JSValue.str "a", false⟩ = Except.ok (JSValue.str "a")) ∧
    ((setFieldIndexJs "x" false false (initFieldSlots (JSValue.str "a"))
        (JSValue.str "a")).2 =
      [FxEv.render "x", FxEv.wire, FxEv.dispatch "x_change", FxEv.dispatch "change"]) ∧
    ((setFieldIndexJs "x" false false (initFieldSlots (JSValue.str "a"))
        (JSValue.str "a")).2 ≠ []) ∧
    ((setFieldIndexJs "x" false false (initFieldSlots (JSValue.str "a"))
        JSValue.undef).2 = []) := by
  refine ⟨rfl, by decide, by decide, by decide⟩

/--
The module-level `views` cache after a `_getView` call, together with the
call's observable outcome: the returned value, whether a `fetch` was
performed, and whether the catch block logged an error.
-/
structure ViewsOut where
  result : Option String
  views : String → Option String
  fetched : Bool
  logged : Bool

/--
Truthiness of a `views` table lookup: absent entries are `undefined` and
the empty string is falsy, so `!views[key]` holds for both.
-/
def viewsTruthy : Option String → Bool
  | some v => v != ""
  | none => false

/--
JavaScript `name.toLowerCase()`, character by character (component and
class names are ASCII).
-/
def toLowerCase (s : String) : String :=
  String.mk (s.data.map Char.toLower)

/--
`getPath` (src/index.js:59-64): prepend `config.componentPath` when it is
set (a non-empty string is truthy) to the lowercased name.
-/
def getPath (componentPath : String) (name : String) : String :=
  if componentPath != "" then componentPath ++ toLowerCase name else toLowerCase name

/--
The URL `_getView` fetches (src/index.js:449):
`` `${getPath(this.constructor.name)}/${this.constructor.name}.html` ``.
-/
def viewUrl (componentPath : String) (className : String) : String :=
  getPath componentPath className ++ "/" ++ className ++ ".html"

/--
`Component._getView` (src/index.js:446-457): when the `views` entry under
the lowercased class name is falsy, fetch the view and store the response
text under that key; return the entry.  The whole body is wrapped in
`try`/`catch`: a failing fetch (or body read), modelled by an
`Except.error` fetch result, is logged and yields `undefined` with the
cache unchanged.
-/
def getView (views : String → Option String) (className : String)
    (fetchResult : Except String String) : ViewsOut :=
  let key := toLowerCase className
  if viewsTruthy (views key) then
    { result := views key, views := views, fetched := false, logged := false }
  else
    match fetchResult with
    | Except.ok text =>
      { result := some text,
        views := fun k => if k = key then some text else views k,
        fetched := true, logged := false }
    | Except.error _ =>
      { result := none, views := views, fetched := true, logged := true }

/--
C4 fails on the code as stated: a first successful `_getView` whose
response text is the empty string stores `""` under the lowercased class
name, yet the next call fetches again, because the cache check
`!views[key]` treats the cached empty string as absent.
-/
theorem getView_empty_view_refetches :
    ((getView (fun _ => none) "Foo" (Except.ok "")).views "foo" = some "") ∧
    ((getView (getView (fun _ => none) "Foo" (Except.ok "")).views
        "Foo" (Except.ok "x")).fetched = true) := by
  constructor
  · rfl
  · rfl

/--
C4 (amended): the first `_getView` call for a class with an empty cache
and a successful fetch stores the response text under the lowercased
class name and returns it; every later call finds a non-empty cached
string, returns exactly it and performs no fetch; a cached empty string,
however, is treated as absent and triggers a re-fetch.
-/
theorem getView_cache_behavior (views : String → Option String)
    (className : String) (fetchResult : Except String String) :
    (views (toLowerCase className) = none → ∀ text, fetchResult = Except.ok text →
      getView views className fetchResult =
        { result := some text,
          views := fun k => if k = toLowerCase className then some text else views k,
          fetched := true, logged := false }) ∧
    (∀ v, views (toLowerCase className) = some v → v ≠ "" →
      getView views className fetchResult =
        { result := some v, views := views, fetched := false, logged := false }) ∧
    (views (toLowerCase className) = some "" →
      (getView views className fetchResult).fetched = true) := by
  refine ⟨?_, ?_, ?_⟩
  · intro hnone text hok
    simp [getView, hnone, hok, viewsTruthy]
  · intro v hv hne
    have ht : viewsTruthy (some v) = true := by
      simp [viewsTruthy, hne]
    simp [getView, hv, ht]
  · intro hv
    have ht : viewsTruthy (some "") = false := by
      simp [viewsTruthy]
    cases fetchResult with
    | ok text => simp [getView, hv, ht]
    | error e => simp [getView, hv, ht]

/--
Witness for C4 (amended): a first fetch of `<div>` is stored and
returned; the second call returns the cached text without fetching.
-/
theorem getView_cache_behavior_witness :
    ((getView (fun _ => none) "Foo" (Except.ok "<div>")).result = some "<div>") ∧
    ((getView (fun k => if k = "foo" then some "<div>" else none) "Foo"
        (Except.ok "other")).result = some "<div>") ∧
    ((getView (fun k => if k = "foo" then some "<div>" else none) "Foo"
        (Except.ok "other")).fetched = false) := by
  have h1 := (getView_cache_behavior (fun _ => none) "Foo" (Except.ok "<div>")).1
    rfl "<div>" rfl
  have h2 := (getView_cache_behavior (fun k => if k = "foo" then some "<div>" else none)
    "Foo" (Except.ok "other")).2.1 "<div>" (by rfl) (by decide)
  refine ⟨by rw [h1], by rw [h2], by rw [h2]⟩

/--
C7: when the cache misses and the fetch (or the reading of the response
body) fails, `_getView` does not propagate the exception: it logs the
error, returns `undefined`, and leaves the `views` cache without an entry
for the class, so a later call retries the fetch.
-/
theorem getView_fetch_error (views : String → Option String)
    (className : String) (e : String)
    (h : viewsTruthy (views (toLowerCase className)) = false) :
    getView views className (Except.error e) =
      { result := none, views := views, fetched := true, logged := true } := by
  simp [getView, h]

/--
Witness for C7: a failed fetch with an empty cache returns `undefined`,
logs, and leaves the cache empty.
-/
theorem getView_fetch_error_witness :
    ((getView (fun _ => none) "Bar" (Except.error "network down")).result = none) ∧
    ((getView (fun _ => none) "Bar" (Except.error "network down")).views "bar" = none) ∧
    ((getView (fun _ => none) "Bar" (Except.error "network down")).logged = true) := by
  have h := getView_fetch_error (fun _ => none) "Bar" "network down" rfl
  refine ⟨by rw [h], by rw [h], by rw [h]⟩

/--
Observable steps during `connectedCallback`: per-field initialization
start/end (`_initField`, including awaited function defaults), the view
fetch and its injection into the shadow root (`_renderView`), the
await-separated segments of each `render_<name>` method (segment 0 runs
when the method is invoked, later segments after each `await`),
`_bindEvents`/`_wireEvents`, and the `onConnected` callback.
-/
inductive CEv where
  | initStart (name : String)
  | initEnd (name : String)
  | fetchView
  | injectView
  | renderSeg (name : String) (i : Nat)
  | bindEvents
  | wireEventsEv
  | onConnected
deriving DecidableEq, Repr

/--
The browser microtask queue while `Promise.all` awaits the render
methods: a FIFO queue of continuations, each entry a field name with its
remaining segment indices.  Running the front continuation executes one
segment and re-enqueues the rest at the back.
-/
def rrQueue : List (String × List Nat) → List CEv
  | [] => []
  | (_, []) :: rest => rrQueue rest
  | (n, i :: is) :: rest => CEv.renderSeg n i :: rrQueue (rest ++ [(n, is)])
termination_by q => (q.map (fun t => t.2.length + 1)).sum
decreasing_by
  · simp
  · simp [List.map_append, List.sum_append]
    omega

theorem rrQueue_nil : rrQueue [] = [] := by
  rw [rrQueue]

theorem rrQueue_cons_nil (n : String) (rest : List (String × List Nat)) :
    rrQueue ((n, []) :: rest) = rrQueue rest := by
  rw [rrQueue]

theorem rrQueue_cons_cons (n : String) (i : Nat) (is : List Nat)
    (rest : List (String × List Nat)) :
    rrQueue ((n, i :: is) :: rest) =
      CEv.renderSeg n i :: rrQueue (rest ++ [(n, is)]) := by
  rw [rrQueue]

/--
Each pending continuation's remaining segments appear, in order, in the
round-robin execution of the queue.
-/
theorem rrQueue_task_sublist (q : List (String × List Nat)) :
    ∀ (n : String) (is : List Nat), (n, is) ∈ q →
      (is.map (CEv.renderSeg n)).Sublist (rrQueue q) := by
  induction q using rrQueue.induct with
  | case1 =>
    intro n is h
    simp at h
  | case2 m rest ih =>
    intro n is h
    rw [rrQueue_cons_nil]
    rcases List.mem_cons.mp h with heq | hmem
    · cases heq
      simp
    · exact ih n is hmem
  | case3 m j js rest ih =>
    intro n is h
    rw [rrQueue_cons_cons]
    rcases List.mem_cons.mp h with heq | hmem
    · cases heq
      simp only [List.map_cons]
      exact List.Sublist.cons₂ _ (ih m js (by simp))
    · exact List.Sublist.cons _ (ih n is (by simp [hmem]))

/--
`Component._renderFields` (src/index.js:438-440): `Promise.all` invokes
each render method in field-declaration order — each runs its first
segment synchronously — and then the remaining segments run from the FIFO
microtask queue, interleaving round-robin.  A task `(n, k)` is
`render_<n>` with `k` awaited suspension points.
-/
def renderAllTrace (tasks : List (String × Nat)) : List CEv :=
  tasks.map (fun t => CEv.renderSeg t.1 0) ++
    rrQueue (tasks.map (fun t => (t.1, (List.range t.2).map (fun i => i + 1))))

/--
The sequential rendering C3 claims: each `render_<name>` runs all its
segments to completion before the next field's render begins.
-/
def renderSeqTrace (tasks : List (String × Nat)) : List CEv :=
  tasks.flatMap (fun t => (List.range (t.2 + 1)).map (CEv.renderSeg t.1))

/--
A component description for the connection trace: the declared field names
in declaration order, and for each name the number of awaited suspension
points of its `render_<name>` method (`none` when the method is absent).
-/
structure CompDesc where
  fields : List String
  renderSegs : String → Option Nat

/--
The fields that have a `render_<name>` method, as `Promise.all` tasks.
-/
def renderTasks (c : CompDesc) : List (String × Nat) :=
  c.fields.filterMap (fun n => (c.renderSegs n).map (fun k => (n, k)))

/--
The execution of `connectedCallback` (src/index.js:188-194) through
`_initialize` (src/index.js:303-309) and `_renderView`
(src/index.js:519-529): each field is initialized with `await` in
declaration order, then the view is fetched and injected, then
`_renderFields` runs the render methods under `Promise.all`, then events
are bound and wired, then `onConnected` is awaited.
-/
def connectedTrace (c : CompDesc) : List CEv :=
  (c.fields.flatMap (fun n => [CEv.initStart n, CEv.initEnd n])) ++
    ([CEv.fetchView, CEv.injectView] ++
      (renderAllTrace (renderTasks c) ++
        [CEv.bindEvents, CEv.wireEventsEv, CEv.onConnected]))

/--
The fully sequential connection C3 claims, differing from the code only
in running the render methods one after another.
-/
def connectedTraceSeqClaim (c : CompDesc) : List CEv :=
  (c.fields.flatMap (fun n => [CEv.initStart n, CEv.initEnd n])) ++
    ([CEv.fetchView, CEv.injectView] ++
      (renderSeqTrace (renderTasks c) ++
        [CEv.bindEvents, CEv.wireEventsEv, CEv.onConnected]))

/--
A component with fields `a`, `b` whose render methods each contain one
`await`.
-/
def twoFieldComp : CompDesc :=
  { fields := ["a", "b"], renderSegs := fun _ => some 1 }

/--
C3 fails on the code: with two fields whose render methods each suspend
once, `render_b` begins (segment `b 0`) before `render_a` completes
(segment `a 1`) — `Promise.all` interleaves the renders, so the actual
connection trace differs from the fully sequential trace the claim
describes.
-/
theorem connectedTrace_not_sequential :
    connectedTrace twoFieldComp =
      [CEv.initStart "a", CEv.initEnd "a", CEv.initStart "b", CEv.initEnd "b",
        CEv.fetchView, CEv.injectView,
        CEv.renderSeg "a" 0, CEv.renderSeg "b" 0,
        CEv.renderSeg "a" 1, CEv.renderSeg "b" 1,
        CEv.bindEvents, CEv.wireEventsEv, CEv.onConnected] ∧
    connectedTrace twoFieldComp ≠ connectedTraceSeqClaim twoFieldComp := by
  have h : connectedTrace twoFieldComp =
      [CEv.initStart "a", CEv.initEnd "a", CEv.initStart "b", CEv.initEnd "b",
        CEv.fetchView, CEv.injectView,
        CEv.renderSeg "a" 0, CEv.renderSeg "b" 0,
        CEv.renderSeg "a" 1, CEv.renderSeg "b" 1,
        CEv.bindEvents, CEv.wireEventsEv, CEv.onConnected] := by
    simp [connectedTrace, renderAllTrace, renderTasks, twoFieldComp,
      rrQueue_cons_cons, rrQueue_cons_nil, rrQueue_nil, List.range_succ]
  refine ⟨h, ?_⟩
  rw [h]
  have h2 : connectedTraceSeqClaim twoFieldComp =
      [CEv.initStart "a", CEv.initEnd "a", CEv.initStart "b", CEv.initEnd "b",
        CEv.fetchView, CEv.injectView,
        CEv.renderSeg "a" 0, CEv.renderSeg "a" 1,
        CEv.renderSeg "b" 0, CEv.renderSeg "b" 1,
        CEv.bindEvents, CEv.wireEventsEv, CEv.onConnected] := by
    simp [connectedTraceSeqClaim, renderSeqTrace, renderTasks, twoFieldComp,
      List.range_succ]
  rw [h2]
  decide

/--
C3 (amended): during connection the fields are initialized strictly in
declaration order, each completing before the next begins, and the view is
fetched and injected before any rendering; the `render_<name>` methods are
then all started in field-declaration order and awaited together via
`Promise.all` — their awaited segments may interleave, but each method's
segments run in order, every segment runs after the view injection, and
everything completes before `onConnected` is awaited.
-/
theorem connectedCallback_sequencing (c : CompDesc) :
    ((c.fields.flatMap (fun m => [CEv.initStart m, CEv.initEnd m])) ++
        [CEv.fetchView, CEv.injectView]) <+: connectedTrace c ∧
    ((renderTasks c).map (fun t => CEv.renderSeg t.1 0)).Sublist (connectedTrace c) ∧
    (∀ n k, (n, k) ∈ renderTasks c →
      (CEv.injectView :: ((List.range (k + 1)).map (CEv.renderSeg n)) ++
        [CEv.onConnected]).Sublist (connectedTrace c)) := by
  refine ⟨?_, ?_, ?_⟩
  · refine ⟨renderAllTrace (renderTasks c) ++
      [CEv.bindEvents, CEv.wireEventsEv, CEv.onConnected], ?_⟩
    simp [connectedTrace]
  · have h1 : ((renderTasks c).map (fun t => CEv.renderSeg t.1 0)).Sublist
        (renderAllTrace (renderTasks c)) :=
      (List.prefix_append _ _).sublist
    have h2 : (renderAllTrace (renderTasks c)).Sublist (connectedTrace c) := by
      unfold connectedTrace
      refine List.Sublist.trans ?_ (List.sublist_append_right _ _)
      refine List.Sublist.trans ?_ (List.sublist_append_right _ _)
      exact List.sublist_append_left _ _
    exact h1.trans h2
  · intro n k hmem
    have hq : (n, (List.range k).map (fun i => i + 1)) ∈
        (renderTasks c).map (fun t => (t.1, (List.range t.2).map (fun i => i + 1))) :=
      List.mem_map.mpr ⟨(n, k), hmem, rfl⟩
    have hrr : (((List.range k).map (fun i => i + 1)).map (CEv.renderSeg n)).Sublist
        (rrQueue ((renderTasks c).map
          (fun t => (t.1, (List.range t.2).map (fun i => i + 1))))) :=
      rrQueue_task_sublist _ n _ hq
    have hseg0 : [CEv.renderSeg n 0].Sublist
        ((renderTasks c).map (fun t => CEv.renderSeg t.1 0)) :=
      List.singleton_sublist.mpr (List.mem_map.mpr ⟨(n, k), hmem, rfl⟩)
    have hrange : (List.range (k + 1)).map (CEv.renderSeg n) =
        CEv.renderSeg n 0 :: ((List.range k).map (fun i => i + 1)).map (CEv.renderSeg n) := by
      rw [List.range_succ_eq_map]
      simp [List.map_map]
    have hrender : ((List.range (k + 1)).map (CEv.renderSeg n)).Sublist
        (renderAllTrace (renderTasks c)) := by
      rw [hrange]
      have := List.Sublist.append hseg0 hrr
      simpa [renderAllTrace] using this
    unfold connectedTrace
    have hgoal : (([CEv.injectView] ++
          ((List.range (k + 1)).map (CEv.renderSeg n) ++ [CEv.onConnected]))).Sublist
        (([CEv.fetchView, CEv.injectView] ++
          (renderAllTrace (renderTasks c) ++
            [CEv.bindEvents, CEv.wireEventsEv, CEv.onConnected]))) := by
      refine List.Sublist.append ?_ (List.Sublist.append hrender ?_)
      · simp
      · decide
    refine List.Sublist.trans ?_ (List.sublist_append_right _ _)
    simpa using hgoal

/--
Witness for C3 (amended): on the two-field component, the inits and the
view steps form a prefix, the two renders start in declaration order, and
`render_a`'s segments run in order after injection and before
`onConnected`.
-/
theorem connectedCallback_sequencing_witness :
    (([CEv.initStart "a", CEv.initEnd "a", CEv.initStart "b", CEv.initEnd "b",
        CEv.fetchView, CEv.injectView]) <+: connectedTrace twoFieldComp) ∧
    ((CEv.injectView :: ((List.range 2).map (CEv.renderSeg "a")) ++
        [CEv.onConnected]).Sublist (connectedTrace twoFieldComp)) := by
  constructor
  · have h := (connectedCallback_sequencing twoFieldComp).1
    simpa [twoFieldComp] using h
  · exact (connectedCallback_sequencing twoFieldComp).2.2 "a" 1 (by decide)

/-! ### Event-wiring conventions (`_wireEvents`, src/index.js:475-514)

The method-name test is the JavaScript regex
`/(?:global_)?(.*)_(.*)_event/` executed by `prop.match(...)`: an
unanchored search that tries each start position from the left, at each
position first letting the optional group consume `global_` and,
inside, matching greedily with backtracking; `.` matches any character
except a newline.  `matchTail`, `matchMain`, `matchAt` and `regexSearch`
transcribe exactly this backtracking search, specialized to the pattern.
-/

/-- The literal `_event` tail of the pattern. -/
def evChars : List Char := ['_', 'e', 'v', 'e', 'n', 't']

/-- The literal optional `global_` head of the pattern. -/
def globalChars : List Char := ['g', 'l', 'o', 'b', 'a', 'l', '_']

/--
Greedy match of `(.*)_event` against a prefix of the input (trailing
characters are allowed): returns the group, preferring the longest one,
which the recursion realizes by extending the group through the head
character (never a newline) whenever the rest still matches.
-/
def matchTail : List Char → Option (List Char)
  | [] => none
  | c :: cs =>
    match (if c = '\n' then none else matchTail cs) with
    | some g2 => some (c :: g2)
    | none => if evChars.isPrefixOf (c :: cs) then some [] else none

/--
Greedy match of `(.*)_(.*)_event` against a prefix of the input: group 1
is extended through the head character whenever the rest still matches
(the longest group 1 wins, as regex backtracking tries), and otherwise
the head must be the literal `_` followed by a `(.*)_event` match.
-/
def matchMain : List Char → Option (List Char × List Char)
  | [] => none
  | c :: cs =>
    match (if c = '\n' then none else matchMain cs) with
    | some (g1, g2) => some (c :: g1, g2)
    | none => if c = '_' then (matchTail cs).map (fun g2 => ([], g2)) else none

/--
The pattern tried at one start position: the greedy optional group
consumes `global_` first when present, falling back to leaving it
unconsumed.
-/
def matchAt (cs : List Char) : Option (List Char × List Char) :=
  if globalChars.isPrefixOf cs then
    match matchMain (cs.drop 7) with
    | some r => some r
    | none => matchMain cs
  else matchMain cs

/--
The unanchored regex search: try each start position from the left and
return the first match's groups.
-/
def regexSearch : List Char → Option (List Char × List Char)
  | [] => matchAt []
  | c :: cs =>
    match matchAt (c :: cs) with
    | some r => some r
    | none => regexSearch cs

/--
The per-property computation of `_wireEvents` (src/index.js:478-482):
`prop.match(/(?:global_)?(.*)_(.*)_event/)` and, for a match,
`isGlobal = prop.startsWith('global_')`, `idOrClass = match[1]`,
`event = match[2]`.
-/
def parseEventProp (s : String) : Option (Bool × String × String) :=
  match regexSearch s.data with
  | some (g1, g2) => some (globalChars.isPrefixOf s.data, String.mk g1, String.mk g2)
  | none => none

/--
Event-listener targets: `window`, the component itself, `document`, or a
DOM node found by a selector query.
-/
inductive Target where
  | window : Target
  | thisComp : Target
  | document : Target
  | node (ref : Nat) : Target
deriving DecidableEq, Repr

/--
The DOM query environment `_wireEvents` runs against: `docId`/`docCls`
are `document.querySelectorAll` with an `#id` / `.class` selector, and
`shadowId`/`shadowCls` the same queries on the component's shadow root
(`this.$$`).
-/
structure DomEnv where
  docId : String → List Target
  docCls : String → List Target
  shadowId : String → List Target
  shadowCls : String → List Target

/--
Target resolution of `_wireEvents` (src/index.js:483-500): the literal
selectors `window`, `this` and `document` target those objects directly;
otherwise a `global_` method queries the document and a plain method
queries the shadow root, by id first and by class when the id query
comes back empty.
-/
def resolveTargets (dom : DomEnv) (isGlobal : Bool) (idOrClass : String) :
    List Target :=
  if idOrClass = "window" then [Target.window]
  else if idOrClass = "this" then [Target.thisComp]
  else if idOrClass = "document" then [Target.document]
  else if isGlobal then
    (if dom.docId idOrClass ≠ [] then dom.docId idOrClass else dom.docCls idOrClass)
  else
    (if dom.shadowId idOrClass ≠ [] then dom.shadowId idOrClass
     else dom.shadowCls idOrClass)

/-- Listener registration actions performed by `_wireEvents`. -/
inductive WireAct where
  | removeListener (t : Target) (event : String) (prop : String) : WireAct
  | addListener (t : Target) (event : String) (prop : String) : WireAct
deriving DecidableEq, Repr

/--
The actions `_wireEvents` performs for one own property name
(src/index.js:477-513): nothing for a non-matching name or when no
targets are found; otherwise, per target, a `removeEventListener`
followed — unless detaching — by an `addEventListener` for the matched
event.
-/
def wireProp (dom : DomEnv) (detach : Bool) (prop : String) : List WireAct :=
  match parseEventProp prop with
  | none => []
  | some (g, sel, ev) =>
    (resolveTargets dom g sel).flatMap (fun t =>
      WireAct.removeListener t ev prop ::
        (if detach then [] else [WireAct.addListener t ev prop]))

/--
`Component._wireEvents` (src/index.js:475-514) over the list of own
prototype property names.
-/
def wireEvents (dom : DomEnv) (props : List String) (detach : Bool) :
    List WireAct :=
  props.flatMap (wireProp dom detach)

/-- Bridge from the boolean test `List.isPrefixOf` to `<+:`. -/
theorem isPrefixOfChars_iff (l1 l2 : List Char) :
    l1.isPrefixOf l2 = true ↔ l1 <+: l2 :=
  List.isPrefixOf_iff_prefix

/--
`(.*)_event` fails at a position exactly when `_event` does not occur in
the input there (newline-free inputs).
-/
theorem matchTail_none_iff (cs : List Char) (hn : '\n' ∉ cs) :
    matchTail cs = none ↔ ¬ evChars <:+: cs := by
  induction cs with
  | nil =>
    simp [matchTail, List.infix_nil, evChars]
  | cons c cs ih =>
    have hc : ¬ c = '\n' := fun h => hn (List.mem_cons.mpr (Or.inl h.symm))
    have hn' : '\n' ∉ cs := fun h => hn (List.mem_cons.mpr (Or.inr h))
    simp only [matchTail]
    rw [if_neg hc]
    cases h2 : matchTail cs with
    | some g2 =>
      have hcs : evChars <:+: cs := by
        by_contra hx
        have h3 := (ih hn').mpr hx
        rw [h2] at h3
        exact Option.noConfusion h3
      exact iff_of_false (by simp) (by simp [List.infix_cons hcs])
    | none =>
      by_cases hp : evChars.isPrefixOf (c :: cs)
      · rw [if_pos hp]
        have hpre : evChars <+: c :: cs := (isPrefixOfChars_iff _ _).mp hp
        exact iff_of_false (by simp) (by simp [hpre.isInfix])
      · rw [if_neg hp]
        have hnp : ¬ evChars <+: c :: cs := fun h => hp ((isPrefixOfChars_iff _ _).mpr h)
        have hni : ¬ evChars <:+: cs := (ih hn').mp h2
        constructor
        · intro _ hinf
          rcases List.infix_cons_iff.mp hinf with h | h
          · exact hnp h
          · exact hni h
        · intro _
          rfl

/--
A successful `(.*)_event` match decomposes the input as the group,
the literal `_event`, and a tail containing no further `_event`
occurrence (the greedy group took the last occurrence).
-/
theorem matchTail_some (cs : List Char) (g2 : List Char) (hn : '\n' ∉ cs)
    (h : matchTail cs = some g2) :
    ∃ tail, cs = g2 ++ evChars ++ tail ∧ ¬ evChars <:+: tail := by
  induction cs generalizing g2 with
  | nil => simp [matchTail] at h
  | cons c cs ih =>
    have hc : ¬ c = '\n' := fun hx => hn (List.mem_cons.mpr (Or.inl hx.symm))
    have hn' : '\n' ∉ cs := fun hx => hn (List.mem_cons.mpr (Or.inr hx))
    simp only [matchTail] at h
    rw [if_neg hc] at h
    cases h2 : matchTail cs with
    | some g2' =>
      rw [h2] at h
      simp only [Option.some.injEq] at h
      obtain ⟨tail, heq, hinf⟩ := ih g2' hn' h2
      refine ⟨tail, ?_, hinf⟩
      rw [← h, heq]
      simp
    | none =>
      rw [h2] at h
      by_cases hp : evChars.isPrefixOf (c :: cs)
      · rw [if_pos hp] at h
        simp only [if_pos, Option.some.injEq] at h
        obtain ⟨t, ht⟩ := (isPrefixOfChars_iff _ _).mp hp
        have ht' : ('_' :: (['e', 'v', 'e', 'n', 't'] ++ t)) = c :: cs := by
          simpa [evChars] using ht
        injection ht' with ht1 ht2
        refine ⟨t, ?_, ?_⟩
        · rw [← h]
          simp [← ht]
        · intro hinf
          have hsuf : t <:+ cs := ht2 ▸ List.suffix_append _ t
          have : evChars <:+: cs := hinf.trans hsuf.isInfix
          exact (matchTail_none_iff cs hn').mp h2 this
      · rw [if_neg hp] at h
        exact absurd h (by simp)

/--
The input admits some `(.*)_(.*)_event` match at its start position:
an underscore followed (not necessarily immediately) by `_event`.
-/
def CanM (cs : List Char) : Prop :=
  ∃ pre rest, cs = pre ++ '_' :: rest ∧ evChars <:+: rest

/--
`(.*)_(.*)_event` fails at a position exactly when no underscore there is
followed by a later `_event` (newline-free inputs).
-/
theorem matchMain_none_iff (cs : List Char) (hn : '\n' ∉ cs) :
    matchMain cs = none ↔ ¬ CanM cs := by
  induction cs with
  | nil =>
    refine iff_of_true rfl ?_
    rintro ⟨pre, rest, heq, -⟩
    exact absurd heq.symm (by simp)
  | cons c cs ih =>
    have hc : ¬ c = '\n' := fun hx => hn (List.mem_cons.mpr (Or.inl hx.symm))
    have hn' : '\n' ∉ cs := fun hx => hn (List.mem_cons.mpr (Or.inr hx))
    simp only [matchMain]
    rw [if_neg hc]
    cases h2 : matchMain cs with
    | some r =>
      obtain ⟨g1, g2⟩ := r
      have hcan : CanM cs := by
        by_contra hx
        have h3 := (ih hn').mpr hx
        rw [h2] at h3
        exact Option.noConfusion h3
      obtain ⟨pre, rest, heq, hinf⟩ := hcan
      exact iff_of_false (by simp)
        (not_not_intro ⟨c :: pre, rest, by simp [heq], hinf⟩)
    | none =>
      have hncs : ¬ CanM cs := (ih hn').mp h2
      by_cases hu : c = '_'
      · subst hu
        cases h3 : matchTail cs with
        | some g2 =>
          have hinf : evChars <:+: cs := by
            by_contra hx
            have h4 := (matchTail_none_iff cs hn').mpr hx
            rw [h3] at h4
            exact Option.noConfusion h4
          exact iff_of_false (by simp [h3]) (not_not_intro ⟨[], cs, rfl, hinf⟩)
        | none =>
          have hninf := (matchTail_none_iff cs hn').mp h3
          refine iff_of_true (by simp [h3]) ?_
          rintro ⟨pre, rest, heq, hinf⟩
          cases pre with
          | nil =>
            injection heq with h4 h5
            exact hninf (by rw [h5]; exact hinf)
          | cons p pre =>
            injection heq with h4 h5
            exact hncs ⟨pre, rest, h5, hinf⟩
      · rw [if_neg hu]
        refine iff_of_true rfl ?_
        rintro ⟨pre, rest, heq, hinf⟩
        cases pre with
        | nil =>
          injection heq with h4 h5
          exact hu h4
        | cons p pre =>
          injection heq with h4 h5
          exact hncs ⟨pre, rest, h5, hinf⟩

/--
A successful `(.*)_(.*)_event` match decomposes the input as group 1, an
underscore, group 2 (underscore-free, by group-1 greediness), the
literal `_event`, and a tail with no further `_event` occurrence.
-/
theorem matchMain_some (cs : List Char) (g1 g2 : List Char) (hn : '\n' ∉ cs)
    (h : matchMain cs = some (g1, g2)) :
    ∃ tail, cs = g1 ++ '_' :: (g2 ++ evChars ++ tail) ∧
      '_' ∉ g2 ∧ ¬ evChars <:+: tail := by
  induction cs generalizing g1 g2 with
  | nil => simp [matchMain] at h
  | cons c cs ih =>
    have hc : ¬ c = '\n' := fun hx => hn (List.mem_cons.mpr (Or.inl hx.symm))
    have hn' : '\n' ∉ cs := fun hx => hn (List.mem_cons.mpr (Or.inr hx))
    simp only [matchMain] at h
    rw [if_neg hc] at h
    cases h2 : matchMain cs with
    | some r =>
      obtain ⟨g1', g2'⟩ := r
      rw [h2] at h
      simp only [Option.some.injEq, Prod.mk.injEq] at h
      obtain ⟨h1, hg2⟩ := h
      obtain ⟨tail, heq, hu, hinf⟩ := ih g1' g2' hn' h2
      refine ⟨tail, ?_, ?_, hinf⟩
      · rw [← h1, ← hg2]
        simp [heq]
      · rw [← hg2]
        exact hu
    | none =>
      rw [h2] at h
      by_cases hu : c = '_'
      · subst hu
        rw [if_pos rfl] at h
        cases h3 : matchTail cs with
        | none =>
          rw [h3] at h
          exact absurd h (by simp)
        | some g2'' =>
          rw [h3] at h
          simp only [Option.map_some', Option.some.injEq, Prod.mk.injEq] at h
          obtain ⟨h1, hg2⟩ := h
          obtain ⟨tail, heq, hinf⟩ := matchTail_some cs g2'' hn' h3
          refine ⟨tail, ?_, ?_, hinf⟩
          · rw [← h1, ← hg2]
            simp [heq]
          · rw [← hg2]
            intro hmem
            obtain ⟨u, v, huv⟩ := List.append_of_mem hmem
            have hcan : CanM cs :=
              ⟨u, v ++ evChars ++ tail, by simp [heq, huv],
                List.infix_append v evChars tail⟩
            exact ((matchMain_none_iff cs hn').mp h2) hcan
      · rw [if_neg hu] at h
        exact absurd h (by simp)

/-- The characters of `_event` after its underscore. -/
def evTailChars : List Char := ['e', 'v', 'e', 'n', 't']

theorem evChars_eq : evChars = '_' :: evTailChars := rfl

/--
An `_event` occurrence cannot start inside an underscore-free block: it
must lie in the part after it.
-/
theorem infixEv_append_drop (u t : List Char) (hu : '_' ∉ u)
    (h : evChars <:+: u ++ t) : evChars <:+: t := by
  induction u with
  | nil => simpa using h
  | cons c u ih =>
    have hc : c ≠ '_' := fun hx => hu (List.mem_cons.mpr (Or.inl hx.symm))
    have hu' : '_' ∉ u := fun hx => hu (List.mem_cons.mpr (Or.inr hx))
    rcases List.infix_cons_iff.mp (by simpa using h) with hpre | hinf
    · rw [evChars_eq] at hpre
      rcases List.cons_prefix_cons.mp hpre with ⟨hh, -⟩
      exact absurd hh.symm hc
    · exact ih hu' hinf

/--
No underscore inside an underscore-free block followed by an
`_event`-free tail opens a match.
-/
theorem not_canM_append (u : List Char) : ∀ t : List Char, '_' ∉ u →
    ¬ evChars <:+: t → ¬ CanM (u ++ t) := by
  induction u with
  | nil =>
    intro t hu ht
    rintro ⟨pre, rest, heq, hinf⟩
    rw [List.nil_append] at heq
    have hsuf : rest <:+ t := by
      rw [heq]
      exact (List.suffix_cons '_' rest).trans (List.suffix_append pre ('_' :: rest))
    exact ht (hinf.trans hsuf.isInfix)
  | cons c u ih =>
    intro t hu ht
    rintro ⟨pre, rest, heq, hinf⟩
    have hc : c ≠ '_' := fun hx => hu (List.mem_cons.mpr (Or.inl hx.symm))
    have hu' : '_' ∉ u := fun hx => hu (List.mem_cons.mpr (Or.inr hx))
    rw [List.cons_append] at heq
    cases pre with
    | nil =>
      rw [List.nil_append] at heq
      injection heq with h1 h2
      exact hc h1
    | cons p pre =>
      rw [List.cons_append] at heq
      injection heq with h1 h2
      exact ih t hu' ht ⟨pre, rest, h2, hinf⟩

/--
A maximal decomposition `g2 ++ _event ++ t` (underscore-free `g2`, no
`_event` in `t`) admits no further match inside itself.
-/
theorem not_canM_decomp (g2 : List Char) : ∀ t : List Char, '_' ∉ g2 →
    ¬ evChars <:+: t → ¬ CanM (g2 ++ evChars ++ t) := by
  induction g2 with
  | nil =>
    intro t hu ht
    rintro ⟨pre, rest, heq, hinf⟩
    rw [List.nil_append, evChars_eq, List.cons_append] at heq
    cases pre with
    | nil =>
      rw [List.nil_append] at heq
      injection heq with h1 h2
      exact ht (infixEv_append_drop evTailChars t (by decide) (by rw [h2]; exact hinf))
    | cons p pre =>
      rw [List.cons_append] at heq
      injection heq with h1 h2
      exact not_canM_append evTailChars t (by decide) ht ⟨pre, rest, h2, hinf⟩
  | cons c g2 ih =>
    intro t hu ht
    rintro ⟨pre, rest, heq, hinf⟩
    have hc : c ≠ '_' := fun hx => hu (List.mem_cons.mpr (Or.inl hx.symm))
    have hu' : '_' ∉ g2 := fun hx => hu (List.mem_cons.mpr (Or.inr hx))
    simp only [List.cons_append] at heq
    cases pre with
    | nil =>
      rw [List.nil_append] at heq
      injection heq with h1 h2
      exact hc h1
    | cons p pre =>
      injection heq with h1 h2
      exact ih t hu' ht ⟨pre, rest, h2, hinf⟩

/--
Inner uniqueness of the maximal decomposition: group 2 and the tail are
determined.
-/
theorem decomp_unique_tail (b : List Char) : ∀ (b' t t' : List Char),
    b ++ evChars ++ t = b' ++ evChars ++ t' → '_' ∉ b → '_' ∉ b' →
    ¬ evChars <:+: t → ¬ evChars <:+: t' → b = b' ∧ t = t' := by
  induction b with
  | nil =>
    intro b' t t' heq hb hb' ht ht'
    cases b' with
    | nil =>
      simp only [List.nil_append] at heq
      exact ⟨rfl, List.append_cancel_left heq⟩
    | cons c b2 =>
      rw [List.nil_append, evChars_eq] at heq
      simp only [List.cons_append] at heq
      injection heq with h1 h2
      exact absurd (List.mem_cons.mpr (Or.inl h1)) hb'
  | cons c b ih =>
    intro b' t t' heq hb hb' ht ht'
    cases b' with
    | nil =>
      rw [List.nil_append, evChars_eq] at heq
      simp only [List.cons_append] at heq
      injection heq with h1 h2
      exact absurd (List.mem_cons.mpr (Or.inl h1.symm)) hb
    | cons c2 b2 =>
      simp only [List.cons_append] at heq
      injection heq with h1 h2
      have hbt : '_' ∉ b := fun hx => hb (List.mem_cons.mpr (Or.inr hx))
      have hbt' : '_' ∉ b2 := fun hx => hb' (List.mem_cons.mpr (Or.inr hx))
      obtain ⟨hbb, htt⟩ := ih b2 t t' h2 hbt hbt' ht ht'
      exact ⟨by rw [h1, hbb], htt⟩

/--
Uniqueness of the maximal decomposition
`g1 ++ _ ++ g2 ++ _event ++ tail` with `g2` underscore-free and no
`_event` in the tail.
-/
theorem decomp_unique (a : List Char) : ∀ (a' b t b' t' : List Char),
    a ++ '_' :: (b ++ evChars ++ t) = a' ++ '_' :: (b' ++ evChars ++ t') →
    '_' ∉ b → '_' ∉ b' → ¬ evChars <:+: t → ¬ evChars <:+: t' →
    a = a' ∧ b = b' ∧ t = t' := by
  induction a with
  | nil =>
    intro a' b t b' t' h1 hb hb' ht ht'
    cases a' with
    | nil =>
      rw [List.nil_append, List.nil_append] at h1
      injection h1 with h2 h3
      obtain ⟨hbb, htt⟩ := decomp_unique_tail b b' t t' h3 hb hb' ht ht'
      exact ⟨rfl, hbb, htt⟩
    | cons c a2 =>
      rw [List.nil_append, List.cons_append] at h1
      injection h1 with h2 h3
      exact absurd ⟨a2, b' ++ evChars ++ t', h3, List.infix_append b' evChars t'⟩
        (not_canM_decomp b t hb ht)
  | cons c a2 ih =>
    intro a' b t b' t' h1 hb hb' ht ht'
    cases a' with
    | nil =>
      rw [List.nil_append, List.cons_append] at h1
      injection h1 with h2 h3
      exact absurd ⟨a2, b ++ evChars ++ t, h3.symm, List.infix_append b evChars t⟩
        (not_canM_decomp b' t' hb' ht')
    | cons c2 a2' =>
      rw [List.cons_append, List.cons_append] at h1
      injection h1 with h2 h3
      obtain ⟨haa, hbb, htt⟩ := ih a2' b t b' t' h3 hb hb' ht ht'
      exact ⟨by rw [h2, haa], hbb, htt⟩

/--
If a suffix of the input admits a match, so does the input.
-/
theorem canM_of_suffix {cs cs2 : List Char} (h : cs2 <:+ cs) (hc : CanM cs2) :
    CanM cs := by
  obtain ⟨pre0, hpre⟩ := h
  obtain ⟨pre, rest, heq, hinf⟩ := hc
  exact ⟨pre0 ++ pre, rest, by rw [← hpre, heq, List.append_assoc], hinf⟩

/--
A failed `(.*)_(.*)_event` match stays failed on every suffix.
-/
theorem matchMain_none_suffix {cs cs2 : List Char} (hn : '\n' ∉ cs)
    (h : matchMain cs = none) (hs : cs2 <:+ cs) : matchMain cs2 = none := by
  have hn2 : '\n' ∉ cs2 := fun hx => hn (hs.subset hx)
  rw [matchMain_none_iff cs2 hn2]
  intro hc
  exact (matchMain_none_iff cs hn).mp h (canM_of_suffix hs hc)

/--
When the whole pattern fails at a position, so does its mandatory part.
-/
theorem matchMain_none_of_matchAt_none {cs : List Char} (h : matchAt cs = none) :
    matchMain cs = none := by
  unfold matchAt at h
  by_cases hp : globalChars.isPrefixOf cs
  · rw [if_pos hp] at h
    cases h2 : matchMain (cs.drop 7) with
    | some r =>
      rw [h2] at h
      exact absurd h (by simp)
    | none =>
      rw [h2] at h
      exact h
  · rw [if_neg hp] at h
    exact h

theorem matchAt_ne_none_of_canM {cs : List Char} (hn : '\n' ∉ cs) (hc : CanM cs) :
    matchAt cs ≠ none := by
  intro h
  exact (matchMain_none_iff cs hn).mp (matchMain_none_of_matchAt_none h) hc

/--
When the pattern fails at the start of a newline-free input it fails at
every later position too, so the unanchored search fails.
-/
theorem regexSearch_none (cs : List Char) (hn : '\n' ∉ cs)
    (h : matchMain cs = none) : regexSearch cs = none := by
  induction cs with
  | nil => decide
  | cons c cs2 ih =>
    have hn2 : '\n' ∉ cs2 := fun hx => hn (List.mem_cons.mpr (Or.inr hx))
    have hm2 : matchMain cs2 = none :=
      matchMain_none_suffix hn h (List.suffix_cons c cs2)
    have ha : matchAt (c :: cs2) = none := by
      unfold matchAt
      by_cases hp : globalChars.isPrefixOf (c :: cs2)
      · rw [if_pos hp]
        have hd : matchMain ((c :: cs2).drop 7) = none :=
          matchMain_none_suffix hn h (List.drop_suffix 7 (c :: cs2))
        rw [hd]
        exact h
      · rw [if_neg hp]
        exact h
    simp only [regexSearch]
    rw [ha]
    exact ih hn2 hm2

/--
On a newline-free input the unanchored search coincides with the match at
the start position: a match anywhere implies one at position 0, and the
leftmost match wins.
-/
theorem regexSearch_eq_matchAt (cs : List Char) (hn : '\n' ∉ cs) :
    regexSearch cs = matchAt cs := by
  cases h : matchAt cs with
  | some r =>
    cases cs with
    | nil => exact h ▸ rfl
    | cons c cs2 =>
      simp only [regexSearch]
      rw [h]
  | none =>
    rw [regexSearch_none cs hn (matchMain_none_of_matchAt_none h)]

/--
`match[1]` as the claim describes it: everything before the event
segment, with a leading `global_` stripped when present.
-/
def stripGlobal (l : List Char) : List Char :=
  if globalChars.isPrefixOf l then l.drop 7 else l

/--
Soundness of the pattern at a position: the groups decompose the input as
`before ++ _ ++ group2 ++ _event ++ tail` where `group2` is
underscore-free, `_event` does not occur in the tail (so it is the input's
last occurrence), and group 1 is `before` with a leading `global_`
stripped exactly when the regex consumed it.
-/
theorem matchAt_sound (cs g1 g2 : List Char) (hn : '\n' ∉ cs)
    (h : matchAt cs = some (g1, g2)) :
    ∃ before tail, cs = before ++ '_' :: (g2 ++ evChars ++ tail) ∧
      '_' ∉ g2 ∧ ¬ evChars <:+: tail ∧ g1 = stripGlobal before := by
  unfold matchAt at h
  by_cases hp : globalChars.isPrefixOf cs
  · rw [if_pos hp] at h
    have hnd : '\n' ∉ cs.drop 7 := fun hx => hn ((List.drop_suffix 7 cs).subset hx)
    obtain ⟨rest0, hrest⟩ := (isPrefixOfChars_iff _ _).mp hp
    have hdrop : cs.drop 7 = rest0 := by
      rw [← hrest]
      exact List.drop_left globalChars rest0
    cases h2 : matchMain (cs.drop 7) with
    | some r =>
      rw [h2] at h
      obtain ⟨hg1, hg2⟩ : r.1 = g1 ∧ r.2 = g2 := by
        injection h with h3
        rw [h3]
        exact ⟨rfl, rfl⟩
      obtain ⟨tail, heq, hu, hinf⟩ := matchMain_some (cs.drop 7) r.1 r.2 hnd (by rw [h2])
      refine ⟨globalChars ++ r.1, tail, ?_, hg2 ▸ hu, hinf, ?_⟩
      · rw [← hrest, ← hdrop, heq, ← hg2]
        simp [List.append_assoc]
      · rw [← hg1, stripGlobal, if_pos ((isPrefixOfChars_iff _ _).mpr (List.prefix_append _ _))]
        exact (List.drop_left globalChars r.1).symm
    | none =>
      rw [h2] at h
      obtain ⟨tail, heq, hu, hinf⟩ := matchMain_some cs g1 g2 hn h
      refine ⟨g1, tail, heq, hu, hinf, ?_⟩
      rw [stripGlobal]
      rw [if_neg ?_]
      intro hpg
      obtain ⟨g1t, hg1t⟩ := (isPrefixOfChars_iff _ _).mp hpg
      have hcs7 : cs.drop 7 = g1t ++ '_' :: (g2 ++ evChars ++ tail) := by
        rw [heq, ← hg1t, List.append_assoc]
        exact List.drop_left globalChars _
      have hcan : CanM (cs.drop 7) :=
        ⟨g1t, g2 ++ evChars ++ tail, hcs7, List.infix_append g2 evChars tail⟩
      exact (matchMain_none_iff (cs.drop 7) hnd).mp h2 hcan
  · rw [if_neg hp] at h
    obtain ⟨tail, heq, hu, hinf⟩ := matchMain_some cs g1 g2 hn h
    refine ⟨g1, tail, heq, hu, hinf, ?_⟩
    rw [stripGlobal, if_neg ?_]
    intro hpg
    refine hp ((isPrefixOfChars_iff _ _).mpr ?_)
    exact ((isPrefixOfChars_iff _ _).mp hpg).trans ⟨_, heq.symm⟩

/--
Completeness and determinism: the unique maximal decomposition determines
the match result at a position.
-/
theorem matchAt_complete (cs before g2 tail : List Char) (hn : '\n' ∉ cs)
    (heq : cs = before ++ '_' :: (g2 ++ evChars ++ tail))
    (hg2 : '_' ∉ g2) (htl : ¬ evChars <:+: tail) :
    matchAt cs = some (stripGlobal before, g2) := by
  have hcan : CanM cs :=
    ⟨before, g2 ++ evChars ++ tail, heq, List.infix_append g2 evChars tail⟩
  cases h : matchAt cs with
  | none => exact absurd h (matchAt_ne_none_of_canM hn hcan)
  | some r =>
    obtain ⟨g1x, g2x⟩ := r
    obtain ⟨bx, tx, heqx, hg2x, htlx, hstrip⟩ := matchAt_sound cs g1x g2x hn h
    obtain ⟨hb, hg, ht⟩ :=
      decomp_unique bx before g2x tx g2 tail (heqx.symm.trans heq) hg2x hg2 htlx htl
    rw [hstrip, hb, hg]

theorem mkData (s : String) : String.mk s.data = s := by
  cases s
  rfl

/-- An empty DOM query environment. -/
def dom0 : DomEnv :=
  { docId := fun _ => [], docCls := fun _ => [],
    shadowId := fun _ => [], shadowCls := fun _ => [] }

/--
C5: `_wireEvents` wires an own property name exactly when it matches
`(?:global_)?(.*)_(.*)_event` (JavaScript semantics: unanchored, greedy,
`.` excluding newlines; property names here are newline-free).  The wired
event type is the last underscore-separated segment before the (last)
`_event` and the selector is everything before that segment with a
leading `global_` stripped whenever the regex consumed it; `isGlobal` is
`startsWith('global_')` on the full name.  The literal selectors
`window`, `this` and `document` target those objects directly, a global
method queries the document and a plain method the shadow root, by id
and then by class.
-/
theorem wireEvents_convention (s : String) (hn : '\n' ∉ s.data) :
    (∀ g sel ev, parseEventProp s = some (g, sel, ev) ↔
      (g = globalChars.isPrefixOf s.data ∧
       ∃ before tail,
         s.data = before ++ '_' :: (ev.data ++ evChars ++ tail) ∧
         '_' ∉ ev.data ∧ ¬ evChars <:+: tail ∧ sel.data = stripGlobal before)) ∧
    (∀ dom g, resolveTargets dom g "window" = [Target.window]) ∧
    (∀ dom g, resolveTargets dom g "this" = [Target.thisComp]) ∧
    (∀ dom g, resolveTargets dom g "document" = [Target.document]) ∧
    (∀ dom sel, sel ≠ "window" → sel ≠ "this" → sel ≠ "document" →
      (resolveTargets dom true sel =
        (if dom.docId sel ≠ [] then dom.docId sel else dom.docCls sel)) ∧
      (resolveTargets dom false sel =
        (if dom.shadowId sel ≠ [] then dom.shadowId sel
         else dom.shadowCls sel))) := by
  refine ⟨?_, ?_, ?_, ?_, ?_⟩
  · intro g sel ev
    constructor
    · intro h
      unfold parseEventProp at h
      cases hr : regexSearch s.data with
      | none =>
        rw [hr] at h
        exact absurd h (by simp)
      | some r =>
        obtain ⟨g1, g2⟩ := r
        rw [hr] at h
        injection h with h2
        obtain ⟨hg, hsel, hev⟩ : globalChars.isPrefixOf s.data = g ∧
            String.mk g1 = sel ∧ String.mk g2 = ev := by
          rw [Prod.mk.injEq, Prod.mk.injEq] at h2
          exact ⟨h2.1, h2.2.1, h2.2.2⟩
        have hat : matchAt s.data = some (g1, g2) := by
          rw [← regexSearch_eq_matchAt s.data hn]
          exact hr
        obtain ⟨before, tail, heq, hu, hinf, hstrip⟩ :=
          matchAt_sound s.data g1 g2 hn hat
        have hevd : ev.data = g2 := by rw [← hev]
        refine ⟨hg.symm, before, tail, ?_, ?_, hinf, ?_⟩
        · rw [hevd]
          exact heq
        · rw [hevd]
          exact hu
        · rw [← hsel]
          exact hstrip
    · rintro ⟨hg, before, tail, heq, hu, hinf, hsel⟩
      have hat : matchAt s.data = some (stripGlobal before, ev.data) :=
        matchAt_complete s.data before ev.data tail hn heq hu hinf
      unfold parseEventProp
      rw [regexSearch_eq_matchAt s.data hn, hat]
      rw [← hsel, hg]
  · intro dom g
    simp [resolveTargets]
  · intro dom g
    simp [resolveTargets]
  · intro dom g
    simp [resolveTargets]
  · intro dom sel h1 h2 h3
    constructor
    · rw [resolveTargets, if_neg h1, if_neg h2, if_neg h3, if_pos rfl]
    · rw [resolveTargets, if_neg h1, if_neg h2, if_neg h3]
      simp

/--
Witness for C5: `global_btn_click_event` parses as a global wiring of
event `click` with selector `btn`, and `a_b_c_event` as a shadow-root
wiring of event `c` with selector `a_b`; `window` resolves to the window
object and a plain selector falls back from id to class.
-/
theorem wireEvents_convention_witness :
    parseEventProp "global_btn_click_event" = some (true, "btn", "click") ∧
    parseEventProp "a_b_c_event" = some (false, "a_b", "c") ∧
    resolveTargets dom0 false "window" = [Target.window] ∧
    resolveTargets dom0 true "btn" = [] := by
  refine ⟨?_, ?_, ?_, ?_⟩
  · exact ((wireEvents_convention "global_btn_click_event" (by decide)).1
      true "btn" "click").mpr
      ⟨by decide, ("global_btn".data), [], by decide, by decide, by decide, by decide⟩
  · exact ((wireEvents_convention "a_b_c_event" (by decide)).1
      false "a_b" "c").mpr
      ⟨by decide, ("a_b".data), [], by decide, by decide, by decide, by decide⟩
  · exact (wireEvents_convention "x_y_event" (by decide)).2.1 dom0 false
  · exact ((wireEvents_convention "x_y_event" (by decide)).2.2.2.2 dom0 "btn"
      (by decide) (by decide) (by decide)).1

/--
C6: `_wireEvents` with `detach = true` (as `disconnectedCallback` calls
it) only ever removes listeners — it performs no `addEventListener` —
and it removes the matched event's listener from every matched target of
every convention-named method, so a disconnected component's handlers
are no longer registered on any of those targets.
-/
theorem wireEvents_detach (dom : DomEnv) (props : List String) :
    (∀ a ∈ wireEvents dom props true,
      ∃ t e p, a = WireAct.removeListener t e p) ∧
    (∀ p ∈ props, ∀ g sel ev, parseEventProp p = some (g, sel, ev) →
      ∀ t ∈ resolveTargets dom g sel,
        WireAct.removeListener t ev p ∈ wireEvents dom props true) := by
  constructor
  · intro a ha
    rw [wireEvents, List.mem_flatMap] at ha
    obtain ⟨p, hp, hap⟩ := ha
    rw [wireProp] at hap
    cases hpp : parseEventProp p with
    | none =>
      rw [hpp] at hap
      exact absurd hap (by simp)
    | some r =>
      obtain ⟨g, sel, ev⟩ := r
      rw [hpp] at hap
      rw [List.mem_flatMap] at hap
      obtain ⟨t, ht, hat⟩ := hap
      simp only [if_pos, List.mem_cons, List.not_mem_nil, or_false] at hat
      exact ⟨t, ev, p, by simpa using hat⟩
  · intro p hp g sel ev hparse t ht
    rw [wireEvents, List.mem_flatMap]
    refine ⟨p, hp, ?_⟩
    rw [wireProp, hparse]
    rw [List.mem_flatMap]
    exact ⟨t, ht, by simp⟩

/--
Witness for C6: detaching a component whose prototype has a
`window_resize_event` method removes the `resize` listener from `window`,
and the action list contains removals only.
-/
theorem wireEvents_detach_witness :
    WireAct.removeListener Target.window "resize" "window_resize_event" ∈
      wireEvents dom0 ["window_resize_event"] true ∧
    wireEvents dom0 ["window_resize_event"] true =
      [WireAct.removeListener Target.window "resize" "window_resize_event"] := by
  constructor
  · exact (wireEvents_detach dom0 ["window_resize_event"]).2 "window_resize_event"
      (by decide) false "window" "resize" (by decide) Target.window (by decide)
  · decide

end Maehem
